import Mathlib

/-
Verification of the map_reduce master/worker pipeline.

The development shallowly embeds the Python sources:
  - core/worker.py   : execute_map, execute_reduce, the partition computation
  - core/master.py   : map_complete, reduce_complete, merge_results
Python strings are modelled as lists of characters (a Python str is a
sequence of Unicode code points).  Machine behaviour that the claims hinge
on - str.strip, str.split, int(), f-string serialization, and CPython's
per-process salted string hash - is embedded explicitly below.
-/

namespace MR

/-- Python strings modelled as lists of Unicode code points. -/
abbrev PyStr := List Char

/-- Python's definition of a whitespace code point (Py_UNICODE_ISSPACE),
used by str.strip().  Note that it includes the tab and newline characters. -/
def pyIsSpace (c : Char) : Bool :=
  let n := c.toNat
  (0x09 ≤ n && n ≤ 0x0d) || (0x1c ≤ n && n ≤ 0x1f) || n == 0x20 || n == 0x85 ||
  n == 0xa0 || n == 0x1680 || (0x2000 ≤ n && n ≤ 0x200a) || n == 0x2028 ||
  n == 0x2029 || n == 0x202f || n == 0x205f || n == 0x3000

/-- Drop the longest suffix whose characters satisfy p. -/
def dropTrailing (p : Char → Bool) (cs : PyStr) : PyStr :=
  (cs.reverse.dropWhile p).reverse

/-- Python's str.strip() with no argument: remove leading and trailing
whitespace. -/
def pyStrip (cs : PyStr) : PyStr :=
  dropTrailing pyIsSpace (cs.dropWhile pyIsSpace)

/-- Python's str.split(sep) with an explicit one-character separator:
split at every occurrence of sep, keeping empty pieces.  The result is
always nonempty. -/
def splitOnChar (sep : Char) : PyStr → List PyStr
  | [] => [[]]
  | c :: cs =>
    let rest := splitOnChar sep cs
    if c = sep then [] :: rest
    else (c :: rest.headD []) :: rest.tail

/-- Decimal digit character test (Python int() accepts the ASCII digits;
we model the ASCII range, which covers every string this program writes). -/
def isDigitChar (c : Char) : Bool :=
  48 ≤ c.toNat && c.toNat ≤ 57

/-- Numeric value of a string of decimal digit characters, most significant
first. -/
def digitsVal (cs : List Char) : Nat :=
  cs.foldl (fun a c => 10 * a + (c.toNat - 48)) 0

/-- Validity of the part of an int() literal that follows the first digit:
further digits, with single underscores allowed between digits. -/
def validDigitsCore : List Char → Bool
  | [] => true
  | c :: rest =>
    if c = '_' then
      match rest with
      | [] => false
      | d :: r2 => isDigitChar d && validDigitsCore r2
    else isDigitChar c && validDigitsCore rest

/-- Validity of an unsigned int() literal body: nonempty, starts with a
digit, single underscores allowed between digits. -/
def validDigitsU : List Char → Bool
  | [] => false
  | c :: rest => isDigitChar c && validDigitsCore rest

/-- Remove the underscore digit separators before evaluating. -/
def stripUnders (cs : List Char) : List Char :=
  cs.filter (fun c => c ≠ '_')

/-- Model of Python's int(s): strip whitespace, allow an optional sign,
then a decimal literal (with underscore separators).  Returns none when
Python would raise ValueError. -/
def pyIntOfStr (s : PyStr) : Option Int :=
  match pyStrip s with
  | [] => none
  | c :: rest =>
    if c = '-' then
      if validDigitsU rest then some (-(digitsVal (stripUnders rest) : Int)) else none
    else if c = '+' then
      if validDigitsU rest then some ((digitsVal (stripUnders rest) : Nat) : Int) else none
    else
      if validDigitsU (c :: rest) then
        some ((digitsVal (stripUnders (c :: rest)) : Nat) : Int)
      else none

/-- Decimal digit characters of a natural number, as produced by Python's
str(n) (and by Lean's Nat.repr). -/
def natReprChars (n : Nat) : List Char := Nat.toDigits 10 n

/-- Decimal representation of a Python int, as produced by f-string
interpolation of an int value: optional leading minus sign, then digits. -/
def intReprChars : Int → List Char
  | Int.ofNat m => natReprChars m
  | Int.negSucc m => '-' :: natReprChars (m + 1)

/-! Serialization of intermediate and output files.

worker.py line 60 and line 111 write each pair as the f-string
"key TAB value NEWLINE"; a file is the concatenation of its records. -/

/-- Body of one written record (without the trailing newline):
key, tab, decimal value. -/
def recordBody (key : PyStr) (v : Int) : PyStr :=
  key ++ '\t' :: intReprChars v

/-- Full content of a written partition or output file: one record per
pair, each terminated by a newline (worker.py lines 58-60 and 109-111). -/
def fileContent (pairs : List (PyStr × Int)) : PyStr :=
  (pairs.map (fun p => recordBody p.1 p.2 ++ ['\n'])).flatten

/-! Parsing, as done by execute_reduce (worker.py lines 93-97) and by
merge_results (master.py lines 177-181):
  for line in f:
      if line.strip():
          key, value = line.strip().split('\t')
          ... int(value) ...
Iterating a text file yields the pieces of the content split at newlines;
a blank line is skipped; a line whose strip-and-split does not give exactly
two fields, or whose second field int() rejects, raises ValueError. -/

instance {ε α : Type _} [DecidableEq ε] [DecidableEq α] : DecidableEq (Except ε α) :=
  fun a b =>
    match a, b with
    | .ok x, .ok y =>
      if h : x = y then .isTrue (by rw [h]) else .isFalse (by simp [h])
    | .error x, .error y =>
      if h : x = y then .isTrue (by rw [h]) else .isFalse (by simp [h])
    | .ok _, .error _ => .isFalse (by simp)
    | .error _, .ok _ => .isFalse (by simp)

/-- Outcome of processing one line. -/
inductive LineParse where
  | blank
  | pair (key : PyStr) (v : Int)
  | err
deriving DecidableEq, Repr

/-- Parse one line the way both readers do: strip, skip if empty, split
at tabs into exactly two fields, convert the second with int(). -/
def parseLine (line : PyStr) : LineParse :=
  if (pyStrip line).isEmpty then .blank
  else
    match splitOnChar '\t' (pyStrip line) with
    | [k, v] =>
      match pyIntOfStr v with
      | some n => .pair k n
      | none => .err
    | _ => .err

/-- Parse a list of lines into pairs; a bad line aborts with an error
(the Python ValueError propagates out of the loop). -/
def parseLines : List PyStr → Except Unit (List (PyStr × Int))
  | [] => .ok []
  | l :: rest =>
    match parseLine l with
    | .blank => parseLines rest
    | .err => .error ()
    | .pair k v =>
      match parseLines rest with
      | .ok tail => .ok ((k, v) :: tail)
      | .error e => .error e

/-- Parse a whole file content: split at newlines, then process the lines. -/
def parseContent (content : PyStr) : Except Unit (List (PyStr × Int)) :=
  parseLines (splitOnChar '\n' content)

/-! Model of CPython's string hash, called as hash(key) in worker.py
line 51.  For str, CPython computes SipHash-1-3 over the string's code
unit buffer, keyed by the two 64-bit words of _Py_HashSecret, which are
drawn at random at every interpreter start when PYTHONHASHSEED is unset
(the repository never sets it).  Distinct worker processes therefore hash
with distinct keys (k0, k1).  The embedding implements SipHash-1-3
exactly, plus CPython's empty-string and minus-one special cases. -/

/-- Wrap-around modulus of 64-bit arithmetic. -/
def M64 : Nat := 2 ^ 64

/-- Addition modulo 2^64. -/
def add64 (a b : Nat) : Nat := (a + b) % M64

/-- Bitwise xor (operands below 2^64 stay below 2^64). -/
def xor64 (a b : Nat) : Nat := a ^^^ b

/-- Left rotation of a 64-bit word. -/
def rotl64 (a r : Nat) : Nat := ((a <<< r) % M64) ||| (a >>> (64 - r))

/-- State of the SipHash mixer. -/
structure SipState where
  v0 : Nat
  v1 : Nat
  v2 : Nat
  v3 : Nat
deriving Repr

/-- One SipHash round (two half-rounds with rotation amounts
13,16 then 17,21, as in CPython's pyhash.c). -/
def sipRound (s : SipState) : SipState :=
  let a := add64 s.v0 s.v1
  let c := add64 s.v2 s.v3
  let b := xor64 (rotl64 s.v1 13) a
  let d := xor64 (rotl64 s.v3 16) c
  let a2 := rotl64 a 32
  let c2 := add64 c b
  let a3 := add64 a2 d
  let b2 := xor64 (rotl64 b 17) c2
  let d2 := xor64 (rotl64 d 21) a3
  let c3 := rotl64 c2 32
  ⟨a3, b2, c3, d2⟩

/-- Little-endian value of a list of bytes. -/
def le64 (bs : List Nat) : Nat := bs.foldr (fun b acc => b + 256 * acc) 0

/-- Consume the full 8-byte blocks of the message. -/
def sipBlocks (s : SipState) : List Nat → SipState × List Nat
  | b0 :: b1 :: b2 :: b3 :: b4 :: b5 :: b6 :: b7 :: rest =>
    let m := le64 [b0, b1, b2, b3, b4, b5, b6, b7]
    let s1 := sipRound { s with v3 := xor64 s.v3 m }
    sipBlocks { s1 with v0 := xor64 s1.v0 m } rest
  | bs => (s, bs)

/-- SipHash-1-3 of a byte list under key (k0, k1), as in CPython. -/
def siphash13 (k0 k1 : Nat) (data : List Nat) : Nat :=
  let b0 := ((data.length % 256) * 2 ^ 56) % M64
  let init : SipState :=
    ⟨xor64 (k0 % M64) 0x736f6d6570736575, xor64 (k1 % M64) 0x646f72616e646f6d,
     xor64 (k0 % M64) 0x6c7967656e657261, xor64 (k1 % M64) 0x7465646279746573⟩
  let (s, rest) := sipBlocks init data
  let b := b0 ||| le64 rest
  let s1 := sipRound { s with v3 := xor64 s.v3 b }
  let s2 := { s1 with v0 := xor64 s1.v0 b }
  let s3 := sipRound (sipRound (sipRound { s2 with v2 := xor64 s2.v2 0xff }))
  xor64 (xor64 s3.v0 s3.v1) (xor64 s3.v2 s3.v3)

/-- Byte buffer CPython hashes for a string: one code unit per character
(UCS-1 layout; the program's keys are ASCII). -/
def strBytes (s : PyStr) : List Nat := s.map Char.toNat

/-- Reinterpret a 64-bit word as a signed Py_hash_t. -/
def toSigned64 (n : Nat) : Int :=
  if n < 2 ^ 63 then (n : Int) else (n : Int) - (M64 : Int)

/-- Model of CPython's hash(s) for a str s under the per-process secret
(k0, k1): 0 for the empty string, otherwise signed SipHash-1-3, with -1
remapped to -2. -/
def pyHashStr (k0 k1 : Nat) (s : PyStr) : Int :=
  if s.isEmpty then 0
  else
    let h := toSigned64 (siphash13 k0 k1 (strBytes s))
    if h = -1 then -2 else h

/-- Partition computation of the map step (worker.py line 51):
reducer_id = hash(key) % num_reducers, with Python's nonnegative-remainder
semantics for a positive modulus (Int.emod agrees with it). -/
def partitionIdx (k0 k1 : Nat) (key : PyStr) (R : Nat) : Int :=
  pyHashStr k0 k1 key % (R : Int)

/-! Insertion-ordered grouping, the behaviour of Python's
collections.defaultdict(list) together with dict insertion order:
appending a value to an existing key keeps its position, a new key is
appended at the end. -/

/-- Append one (key, value) into an insertion-ordered multimap. -/
def insertGrouped {κ ν : Type} [DecidableEq κ] (k : κ) (v : ν) :
    List (κ × List ν) → List (κ × List ν)
  | [] => [(k, [v])]
  | e :: rest =>
    if e.1 = k then (e.1, e.2 ++ [v]) :: rest
    else e :: insertGrouped k v rest

/-- Group a stream of (key, value) pairs in insertion order, as
defaultdict(list) accumulation does. -/
def groupPairs {κ ν : Type} [DecidableEq κ] (l : List (κ × ν)) : List (κ × List ν) :=
  l.foldl (fun acc p => insertGrouped p.1 p.2 acc) []

/-- Values carried by a given key in a stream of (key, value) pairs, in
stream order. -/
def valsOf {κ ν : Type} [DecidableEq κ] (r : κ) (l : List (κ × ν)) : List ν :=
  (l.filter (fun e => e.1 = r)).map Prod.snd

/-! Worker task executors (worker.py). -/

/-- Result of a task execution at a worker: a completed task has notified
the master with its report; a failed task was caught by the except block,
answered with a failed status, and never reported completion (worker.py
lines 75-77 and 124-126). -/
inductive WorkerResult (ρ : Type) where
  | completed (report : ρ)
  | failed
deriving DecidableEq, Repr

/-- Partition files written by one map task (worker.py lines 48-62):
group the mapped pairs by reducer index in first-touch dictionary order,
and serialize each nonempty bucket as one file.  Returns the list of
(reducer index, file content) in the order the files are written. -/
def mapPartitionFiles (k0 k1 : Nat) (R : Nat) (mapped : List (PyStr × Int)) :
    List (Int × PyStr) :=
  (groupPairs (mapped.map (fun p => (partitionIdx k0 k1 p.1 R, p)))).map
    (fun g => (g.1, fileContent g.2))

/-- Map task execution (worker.py execute_map, lines 27-77).  The input
read and the per-reducer file writes are the fallible effects; none is
some text models a successful read, none models an I/O error (caught by
the except block).  writeOk r models whether writing reducer r's partition
file succeeds.  On any error the handler answers failed and sends no
map_complete callback; on success it reports the manifest of written
files. -/
def execute_map (k0 k1 : Nat) (R : Nat) (map_func : PyStr → List (PyStr × Int))
    (input : Option PyStr) (writeOk : Int → Bool) :
    WorkerResult (List (Int × PyStr)) :=
  match input with
  | none => .failed
  | some text =>
    let files := mapPartitionFiles k0 k1 R (map_func text)
    if files.all (fun g => writeOk g.1) then .completed files
    else .failed

/-- Word-count map function shipped with the worker (worker.py
create_worker, lines 164-167): lower-case, split on whitespace, strip
punctuation, emit (word, 1) for each nonempty word.  We model the
punctuation strip on the character list. -/
def isPunct (c : Char) : Bool :=
  c = '.' || c = ',' || c = '!' || c = '?' || c = ';' || c = ':'

/-- Strip leading and trailing punctuation, as word.strip('.,!?;:'). -/
def stripPunct (w : PyStr) : PyStr :=
  dropTrailing isPunct (w.dropWhile isPunct)

/-- Python's str.split() with no argument: split at whitespace runs,
dropping empty pieces. -/
def splitWhite (cs : PyStr) : List PyStr :=
  ((splitOnChar ' ' cs).map (fun w => w.filter (fun c => !pyIsSpace c))).filter
    (fun w => !w.isEmpty)

/-- Word-count map function over a text chunk. -/
def wcMapFunc (text : PyStr) : List (PyStr × Int) :=
  ((splitWhite (text.map Char.toLower)).map stripPunct).filterMap
    (fun w => if w.isEmpty then none else some (w, 1))

/-- Word-count reduce function (worker.py lines 169-171): sum the counts. -/
def wcReduceFunc (k : PyStr) (vs : List Int) : PyStr × Int := (k, vs.sum)

/-- Read and parse every input file of a reduce task in order
(worker.py lines 91-97).  A missing file (none) raises inside the try
block; a parse error likewise. -/
def readFiles : List (Option PyStr) → Except Unit (List (PyStr × Int))
  | [] => .ok []
  | none :: _ => .error ()
  | some content :: rest =>
    match parseContent content with
    | .error e => .error e
    | .ok ps =>
      match readFiles rest with
      | .error e => .error e
      | .ok tail => .ok (ps ++ tail)

/-- Per-key reduction of a parsed pair stream (worker.py lines 102-105):
group by key in insertion order, then apply the reduce function once per
key with its full value list. -/
def reduceResults (pairs : List (PyStr × Int)) : List (PyStr × Int) :=
  (groupPairs pairs).map (fun g => wcReduceFunc g.1 g.2)

/-- Reduce task execution (worker.py execute_reduce, lines 80-126):
read and group all partition files, apply the reduce function once per
key, write one output file for the reducer index, and report completion;
any exception yields a failed response with no reduce_complete callback. -/
def execute_reduce (reducer_id : Nat) (input_files : List (Option PyStr)) :
    WorkerResult (Nat × PyStr) :=
  match readFiles input_files with
  | .error _ => .failed
  | .ok pairs => .completed (reducer_id, fileContent (reduceResults pairs))

/-! Master server state and transitions (master.py). -/

/-- Partition file names are determined by (map task number, reducer
index); master.py only ever forwards them opaquely. -/
abbrev Fname := Nat × Int

/-- Append files to a reducer's manifest entry
(defaultdict(list)[r].extend(files), master.py line 53). -/
def extendManifest (acc : List (Int × List Fname)) (r : Int) (fs : List Fname) :
    List (Int × List Fname) :=
  fs.foldl (fun a f => insertGrouped r f a) acc

/-- Mutable coordinator state (master.py lines 14-22), restricted to the
fields the claims are about.  reduce_phase_starts counts how many times
the map-phase-complete transition has launched start_reduce_phase;
merges counts invocations of merge_results. -/
structure MasterState where
  num_map_tasks : Nat
  num_reduce_tasks : Nat
  intermediate_files : List (Int × List Fname)
  completed_maps : Nat
  completed_reduces : Nat
  reduce_phase_starts : Nat
  merges : Nat
deriving DecidableEq, Repr

/-- Initial state for a job with m map tasks and R reduce tasks. -/
def initMaster (m R : Nat) : MasterState :=
  ⟨m, R, [], 0, 0, 0, 0⟩

/-- Payload of a POST /map_complete report (master.py lines 42-47). -/
structure MapReport where
  task_id : PyStr
  intermediate : List (Int × List Fname)
deriving DecidableEq, Repr

/-- Handler of /map_complete (master.py lines 42-62): merge the reported
manifest, increment the completed-map counter unconditionally, and launch
the reduce phase when the counter equals the number of map tasks.  The
task_id is only printed: the handler keys nothing on it. -/
def map_complete (st : MasterState) (r : MapReport) : MasterState :=
  let inter := r.intermediate.foldl (fun a e => extendManifest a e.1 e.2)
    st.intermediate_files
  let cm := st.completed_maps + 1
  { st with
    intermediate_files := inter
    completed_maps := cm
    reduce_phase_starts :=
      if cm = st.num_map_tasks then st.reduce_phase_starts + 1
      else st.reduce_phase_starts }

/-- Handler of /reduce_complete (master.py lines 64-79): increment the
completed-reduce counter and run the merge when it reaches the reducer
count. -/
def reduce_complete (st : MasterState) : MasterState :=
  let cr := st.completed_reduces + 1
  { st with
    completed_reduces := cr
    merges := if cr = st.num_reduce_tasks then st.merges + 1 else st.merges }

/-- Collection loop of merge_results (master.py lines 173-183): for each
reducer index in order, a missing file (none) is skipped with a warning
(the except FileNotFoundError branch), a present file is parsed line by
line; a malformed line raises ValueError, which no handler catches, so it
aborts the merge. -/
def mergeCollect (files : Nat → Option PyStr) : List Nat → Except Unit (List (PyStr × Int))
  | [] => .ok []
  | i :: rest =>
    match files i with
    | none => mergeCollect files rest
    | some content =>
      match parseContent content with
      | .error e => .error e
      | .ok ps =>
        match mergeCollect files rest with
        | .error e => .error e
        | .ok tail => .ok (ps ++ tail)

/-- Stable insertion into a count-descending list: the element passes
strictly greater counts and stops in front of the first element of equal
or smaller count, which preserves the original relative order of equal
counts exactly as Python's stable list.sort does. -/
def insertByCount (x : PyStr × Int) : List (PyStr × Int) → List (PyStr × Int)
  | [] => [x]
  | y :: t => if x.2 < y.2 then y :: insertByCount x t else x :: y :: t

/-- Stable sort into non-increasing count order, the behaviour of
final_results.sort(key=lambda x: x[1], reverse=True) (master.py
line 186). -/
def sortByCountDesc : List (PyStr × Int) → List (PyStr × Int)
  | [] => []
  | x :: xs => insertByCount x (sortByCountDesc xs)

/-- Result merger (master.py merge_results, lines 169-197): concatenate
the parsed reduce outputs for reducer indices 0..R-1 and sort by count
descending.  An uncaught parse error aborts the whole merge. -/
def merge_results (R : Nat) (files : Nat → Option PyStr) :
    Except Unit (List (PyStr × Int)) :=
  match mergeCollect files (List.range R) with
  | .error e => .error e
  | .ok l => .ok (sortByCountDesc l)

/-! Whole-job pipeline.  One map task is described by the hash secret of
the worker process that executes it (CPython draws a fresh secret per
process) and by the pair list its map function produced. -/

/-- One executed map task: the executing process's hash secret and the
mapped (key, value) pairs of its input chunk. -/
structure MapTaskRun where
  k0 : Nat
  k1 : Nat
  pairs : List (PyStr × Int)
deriving Repr

/-- Partition files produced by one map task. -/
def taskFiles (R : Nat) (t : MapTaskRun) : List (Int × PyStr) :=
  mapPartitionFiles t.k0 t.k1 R t.pairs

/-- Input files handed to reducer r: each completed map task contributed
its partition file for r, if it wrote one (master.py lines 52-53 collect
them; line 149 hands the list to the reduce task). -/
def reducerInputFiles (R : Nat) (tasks : List MapTaskRun) (r : Nat) :
    List (Option PyStr) :=
  (tasks.filterMap (fun t => (taskFiles R t).lookup (r : Int))).map some

/-- Pairs routed to reducer r across all map tasks, each task partitioning
with its own process's hash secret. -/
def routedTo (R : Nat) (tasks : List MapTaskRun) (r : Nat) : List (PyStr × Int) :=
  (tasks.map (fun t =>
    t.pairs.filter (fun p => partitionIdx t.k0 t.k1 p.1 R = (r : Int)))).flatten

/-- Output file content of reducer r for the job, when its reduce task
completed. -/
def jobOutputContent (R : Nat) (tasks : List MapTaskRun) (r : Nat) : Option PyStr :=
  match execute_reduce r (reducerInputFiles R tasks r) with
  | .completed p => some p.2
  | .failed => none

/-- Distinct keys recorded in one reduce output file, as the merger
parses it. -/
def fileDistinctKeys (content : PyStr) : Nat :=
  match parseContent content with
  | .ok ps => (ps.map Prod.fst).dedup.length
  | .error _ => 0

/-- Keys found in a parsed reduce output file. -/
def fileKeys (content : PyStr) : List PyStr :=
  match parseContent content with
  | .ok ps => ps.map Prod.fst
  | .error _ => []

/-- Keys a claim calls safe: what the serialization and the strip-based
parsing round-trip without corruption.  The key must be nonempty, must
not start with a whitespace character (str.strip of the line would eat
it), and must contain no tab, newline, or carriage return. -/
def safeKey (k : PyStr) : Bool :=
  !k.isEmpty && !pyIsSpace (k.headD ' ') &&
    k.all (fun c => c ≠ '\t' && c ≠ '\n' && c ≠ '\r')

/-! Concrete instances used to evaluate the embedded code on specific
inputs. -/

/-- Key used in the concrete scenarios: the word "the". -/
def theKey : PyStr := ['t', 'h', 'e']

/-- Duplicate /map_complete report for task id "map-0", contributing one
partition file for reducer 0. -/
def dupReport : MapReport :=
  ⟨['m', 'a', 'p', '-', '0'], [(0, [(0, 0)])]⟩

/-- Two map tasks over the same word, executed by two worker processes
whose interpreters drew different hash secrets ((0,0) and (1,0)). -/
def cexTasks : List MapTaskRun :=
  [⟨0, 0, [(theKey, 1)]⟩, ⟨1, 0, [(theKey, 1)]⟩]

/-- One map task with two distinct words, a uniform-secret job. -/
def wTasks : List MapTaskRun :=
  [⟨0, 0, [(['a'], 1), (['b'], 1)]⟩]

/-! Infrastructure lemmas about the string primitives. -/

theorem splitOnChar_ne_nil (sep : Char) (cs : PyStr) : splitOnChar sep cs ≠ [] := by
  cases cs with
  | nil => simp [splitOnChar]
  | cons c cs =>
    simp only [splitOnChar]
    split <;> simp

theorem splitOnChar_append_not_mem {sep : Char} {a : PyStr} (h : sep ∉ a) (b : PyStr) :
    splitOnChar sep (a ++ b) =
      (a ++ (splitOnChar sep b).headD []) :: (splitOnChar sep b).tail := by
  induction a with
  | nil =>
    simp only [List.nil_append]
    obtain ⟨x, xs, hx⟩ := List.exists_cons_of_ne_nil (splitOnChar_ne_nil sep b)
    rw [hx]
    rfl
  | cons c a ih =>
    have hc : c ≠ sep := fun hh => h (by simp [hh])
    have ha : sep ∉ a := fun hh => h (List.mem_cons_of_mem _ hh)
    obtain ⟨x, xs, hx⟩ := List.exists_cons_of_ne_nil (splitOnChar_ne_nil sep b)
    have hstep : splitOnChar sep (c :: (a ++ b)) =
        (c :: (splitOnChar sep (a ++ b)).headD []) :: (splitOnChar sep (a ++ b)).tail := by
      simp only [splitOnChar, if_neg hc]
    rw [List.cons_append, hstep, ih ha, hx]
    simp

theorem splitOnChar_sep_cons (sep : Char) (b : PyStr) :
    splitOnChar sep (sep :: b) = [] :: splitOnChar sep b := by
  simp [splitOnChar]

theorem splitOnChar_append_sep {sep : Char} {a : PyStr} (h : sep ∉ a) (b : PyStr) :
    splitOnChar sep (a ++ sep :: b) = a :: splitOnChar sep b := by
  rw [splitOnChar_append_not_mem h, splitOnChar_sep_cons]
  simp

theorem splitOnChar_not_mem {sep : Char} {a : PyStr} (h : sep ∉ a) :
    splitOnChar sep a = [a] := by
  have h2 := splitOnChar_append_not_mem h []
  simpa [splitOnChar] using h2

theorem not_mem_of_mem_splitOnChar {sep : Char} {cs : PyStr} :
    ∀ p ∈ splitOnChar sep cs, sep ∉ p := by
  induction cs with
  | nil =>
    intro p hp
    simp [splitOnChar] at hp
    simp [hp]
  | cons c cs ih =>
    intro p hp
    simp only [splitOnChar] at hp
    by_cases hc : c = sep
    · rw [if_pos hc] at hp
      rcases List.mem_cons.mp hp with h1 | h1
      · simp [h1]
      · exact ih p h1
    · rw [if_neg hc] at hp
      obtain ⟨x, xs, hx⟩ := List.exists_cons_of_ne_nil (splitOnChar_ne_nil sep cs)
      rw [hx] at hp
      rcases List.mem_cons.mp hp with h1 | h1
      · subst h1
        intro hmem
        rcases List.mem_cons.mp hmem with h2 | h2
        · exact hc h2.symm
        · exact ih x (by rw [hx]; exact List.mem_cons_self x xs) h2
      · exact ih p (by rw [hx]; exact List.mem_cons_of_mem x h1)

theorem dropWhile_eq_self_of_head {p : Char → Bool} {cs : PyStr}
    (h : ∀ hne : cs ≠ [], p (cs.head hne) = false) : cs.dropWhile p = cs := by
  cases cs with
  | nil => rfl
  | cons c cs =>
    have hc := h (by simp)
    simp only [List.head_cons] at hc
    rw [List.dropWhile_cons, if_neg (by simp [hc])]

theorem pyStrip_eq_self {cs : PyStr} (h1 : cs ≠ [])
    (h2 : pyIsSpace (cs.head h1) = false)
    (h3 : pyIsSpace (cs.getLast h1) = false) : pyStrip cs = cs := by
  unfold pyStrip dropTrailing
  rw [dropWhile_eq_self_of_head (fun _ => h2)]
  rw [dropWhile_eq_self_of_head, List.reverse_reverse]
  intro hne
  rw [List.head_reverse]
  exact h3

theorem pyStrip_all_not_space {cs : PyStr} (h : ∀ c ∈ cs, pyIsSpace c = false) :
    pyStrip cs = cs := by
  cases hcs : cs with
  | nil => rfl
  | cons c t =>
    subst hcs
    refine pyStrip_eq_self (by simp) ?_ ?_
    · exact h _ (List.head_mem _)
    · exact h _ (List.getLast_mem _)

/-! Lemmas about decimal digits and the int() model. -/

theorem digitChar_spec {d : Nat} (h : d < 10) :
    isDigitChar (Nat.digitChar d) = true ∧ (Nat.digitChar d).toNat = 48 + d := by
  interval_cases d <;> exact ⟨by decide, by decide⟩

theorem isDigitChar_props {c : Char} (h : isDigitChar c = true) :
    pyIsSpace c = false ∧ c ≠ '_' ∧ c ≠ '-' ∧ c ≠ '+' ∧ c ≠ '\t' ∧ c ≠ '\n' := by
  have hn : 48 ≤ c.toNat ∧ c.toNat ≤ 57 := by
    simpa [isDigitChar] using h
  constructor
  · simp only [pyIsSpace, Bool.or_eq_false_iff, Bool.and_eq_false_iff,
      decide_eq_false_iff_not, beq_eq_false_iff_ne, ne_eq]
    omega
  refine ⟨?_, ?_, ?_, ?_, ?_⟩ <;>
    · intro heq
      subst heq
      revert hn
      decide

theorem digitsVal_append_one (xs : List Char) (c : Char) :
    digitsVal (xs ++ [c]) = 10 * digitsVal xs + (c.toNat - 48) := by
  unfold digitsVal
  rw [List.foldl_append]
  rfl

theorem toDigitsCore_spec :
    ∀ fuel n ds, n < fuel →
      ∃ cs, Nat.toDigitsCore 10 fuel n ds = cs ++ ds ∧ cs ≠ [] ∧
        (∀ c ∈ cs, isDigitChar c = true) ∧ digitsVal cs = n := by
  intro fuel
  induction fuel with
  | zero => intro n ds h; omega
  | succ fuel ih =>
    intro n ds h
    have hd := digitChar_spec (d := n % 10) (Nat.mod_lt _ (by omega))
    by_cases hz : n / 10 = 0
    · refine ⟨[Nat.digitChar (n % 10)], ?_, by simp, ?_, ?_⟩
      · simp [Nat.toDigitsCore, hz]
      · intro c hc
        simp at hc
        subst hc
        exact hd.1
      · have : n < 10 := by omega
        simp [digitsVal, hd.2]
        omega
    · have hlt : n / 10 < fuel := by
        have h1 : n / 10 < n := Nat.div_lt_self (by omega) (by omega)
        omega
      obtain ⟨cs, heq, hne, hdig, hval⟩ := ih (n / 10) (Nat.digitChar (n % 10) :: ds) hlt
      refine ⟨cs ++ [Nat.digitChar (n % 10)], ?_, by simp, ?_, ?_⟩
      · simp only [Nat.toDigitsCore, hz, if_neg hz]
        rw [heq]
        simp
      · intro c hc
        rcases List.mem_append.mp hc with h1 | h1
        · exact hdig c h1
        · simp at h1
          subst h1
          exact hd.1
      · rw [digitsVal_append_one, hval, hd.2]
        omega

theorem natReprChars_spec (n : Nat) :
    natReprChars n ≠ [] ∧ (∀ c ∈ natReprChars n, isDigitChar c = true) ∧
      digitsVal (natReprChars n) = n := by
  unfold natReprChars Nat.toDigits
  obtain ⟨cs, heq, h1, h2, h3⟩ := toDigitsCore_spec (n + 1) n [] (by omega)
  rw [heq]
  simpa using ⟨h1, h2, h3⟩

theorem validDigitsCore_of_digits {cs : List Char}
    (h : ∀ c ∈ cs, isDigitChar c = true) : validDigitsCore cs = true := by
  induction cs with
  | nil => rfl
  | cons c cs ih =>
    have hc := h c (by simp)
    unfold validDigitsCore
    rw [if_neg (isDigitChar_props hc).2.1]
    simp [hc, ih (fun d hd => h d (List.mem_cons_of_mem c hd))]

theorem stripUnders_of_digits {cs : List Char}
    (h : ∀ c ∈ cs, isDigitChar c = true) : stripUnders cs = cs := by
  unfold stripUnders
  rw [List.filter_eq_self]
  intro c hc
  simpa using (isDigitChar_props (h c hc)).2.1

theorem pyIntOfStr_natRepr (n : Nat) : pyIntOfStr (natReprChars n) = some (n : Int) := by
  obtain ⟨h1, h2, h3⟩ := natReprChars_spec n
  have hstrip : pyStrip (natReprChars n) = natReprChars n :=
    pyStrip_all_not_space (fun c hc => (isDigitChar_props (h2 c hc)).1)
  unfold pyIntOfStr
  rw [hstrip]
  cases hcs : natReprChars n with
  | nil => exact absurd hcs h1
  | cons c rest =>
    have hc : isDigitChar c = true := h2 c (by rw [hcs]; simp)
    have hprops := isDigitChar_props hc
    dsimp only
    rw [if_neg hprops.2.2.1, if_neg hprops.2.2.2.1]
    have hvd : validDigitsU (c :: rest) = true := by
      unfold validDigitsU
      rw [Bool.and_eq_true]
      refine ⟨hc, validDigitsCore_of_digits ?_⟩
      intro d hd
      exact h2 d (by rw [hcs]; exact List.mem_cons_of_mem c hd)
    rw [if_pos hvd, ← hcs, stripUnders_of_digits h2, h3]

theorem pyIntOfStr_intRepr (v : Int) : pyIntOfStr (intReprChars v) = some v := by
  cases v with
  | ofNat m => exact pyIntOfStr_natRepr m
  | negSucc m =>
    obtain ⟨h1, h2, h3⟩ := natReprChars_spec (m + 1)
    have hstrip : pyStrip ('-' :: natReprChars (m + 1)) = '-' :: natReprChars (m + 1) := by
      refine pyStrip_all_not_space ?_
      intro c hc
      rcases List.mem_cons.mp hc with h | h
      · subst h; decide
      · exact (isDigitChar_props (h2 c h)).1
    show pyIntOfStr ('-' :: natReprChars (m + 1)) = some (Int.negSucc m)
    unfold pyIntOfStr
    rw [hstrip]
    dsimp only
    rw [if_pos rfl]
    have hvd : validDigitsU (natReprChars (m + 1)) = true := by
      cases hcs : natReprChars (m + 1) with
      | nil => exact absurd hcs h1
      | cons c rest =>
        unfold validDigitsU
        rw [Bool.and_eq_true]
        refine ⟨h2 c (by rw [hcs]; simp), validDigitsCore_of_digits ?_⟩
        intro d hd
        exact h2 d (by rw [hcs]; exact List.mem_cons_of_mem c hd)
    rw [if_pos hvd, stripUnders_of_digits h2, h3]
    congr 1

/-! Round-trip lemmas: a record written by the map or reduce step is
recovered verbatim by the strip-and-split parsing, provided the key is
safe (nonempty, no leading whitespace, no tab or newline). -/

theorem intReprChars_ne_nil (v : Int) : intReprChars v ≠ [] := by
  cases v with
  | ofNat m => exact (natReprChars_spec m).1
  | negSucc m => simp [intReprChars]

theorem intReprChars_mem {v : Int} {c : Char} (h : c ∈ intReprChars v) :
    isDigitChar c = true ∨ c = '-' := by
  cases v with
  | ofNat m => exact Or.inl ((natReprChars_spec m).2.1 c h)
  | negSucc m =>
    rcases List.mem_cons.mp h with h1 | h1
    · exact Or.inr h1
    · exact Or.inl ((natReprChars_spec (m + 1)).2.1 c h1)

theorem intReprChars_no_tab {v : Int} : '\t' ∉ intReprChars v := by
  intro h
  rcases intReprChars_mem h with h1 | h1 <;> revert h1 <;> decide

theorem intReprChars_no_newline {v : Int} : '\n' ∉ intReprChars v := by
  intro h
  rcases intReprChars_mem h with h1 | h1 <;> revert h1 <;> decide

theorem intReprChars_getLast {v : Int} (hne : intReprChars v ≠ []) :
    isDigitChar ((intReprChars v).getLast hne) = true := by
  cases v with
  | ofNat m => exact (natReprChars_spec m).2.1 _ (List.getLast_mem hne)
  | negSucc m =>
    have h1 := (natReprChars_spec (m + 1)).1
    show isDigitChar (('-' :: natReprChars (m + 1)).getLast hne) = true
    rw [List.getLast_cons h1]
    exact (natReprChars_spec (m + 1)).2.1 _ (List.getLast_mem h1)

theorem safeKey_unpack {k : PyStr} (h : safeKey k = true) :
    k ≠ [] ∧ pyIsSpace (k.headD ' ') = false ∧
      ∀ c ∈ k, c ≠ '\t' ∧ c ≠ '\n' ∧ c ≠ '\r' := by
  unfold safeKey at h
  simp only [Bool.and_eq_true, List.all_eq_true, Bool.not_eq_true',
    List.isEmpty_eq_false, decide_eq_true_eq, ne_eq] at h ⊢
  refine ⟨h.1.1, h.1.2, ?_⟩
  intro c hc
  have h3 := h.2 c hc
  exact ⟨h3.1.1, h3.1.2, h3.2⟩

theorem tab_not_mem_of_safe {k : PyStr} (h : safeKey k = true) : '\t' ∉ k := by
  intro hmem
  exact ((safeKey_unpack h).2.2 _ hmem).1 rfl

theorem newline_not_mem_of_safe {k : PyStr} (h : safeKey k = true) : '\n' ∉ k := by
  intro hmem
  exact ((safeKey_unpack h).2.2 _ hmem).2.1 rfl

theorem recordBody_ne_nil (k : PyStr) (v : Int) : recordBody k v ≠ [] := by
  simp [recordBody]

theorem newline_not_mem_recordBody {k : PyStr} {v : Int} (hk : safeKey k = true) :
    '\n' ∉ recordBody k v := by
  intro hmem
  unfold recordBody at hmem
  rcases List.mem_append.mp hmem with h1 | h1
  · exact newline_not_mem_of_safe hk h1
  · rcases List.mem_cons.mp h1 with h2 | h2
    · exact absurd h2 (by decide)
    · exact intReprChars_no_newline h2

theorem pyStrip_recordBody {k : PyStr} {v : Int} (hk : safeKey k = true) :
    pyStrip (recordBody k v) = recordBody k v := by
  obtain ⟨hne, hhead, _⟩ := safeKey_unpack hk
  refine pyStrip_eq_self (recordBody_ne_nil k v) ?_ ?_
  · cases k with
    | nil => exact absurd rfl hne
    | cons a t =>
      simpa [recordBody] using hhead
  · have hiv := intReprChars_ne_nil v
    have htail : ('\t' :: intReprChars v) ≠ [] := by simp
    have h2 : (recordBody k v).getLast (recordBody_ne_nil k v) =
        (intReprChars v).getLast hiv := by
      unfold recordBody
      rw [List.getLast_append' k _ htail, List.getLast_cons hiv]
    rw [h2]
    exact (isDigitChar_props (intReprChars_getLast hiv)).1

theorem splitTab_recordBody {k : PyStr} {v : Int} (hk : safeKey k = true) :
    splitOnChar '\t' (recordBody k v) = [k, intReprChars v] := by
  unfold recordBody
  rw [splitOnChar_append_sep (tab_not_mem_of_safe hk),
    splitOnChar_not_mem intReprChars_no_tab]

theorem parseLine_recordBody {k : PyStr} {v : Int} (hk : safeKey k = true) :
    parseLine (recordBody k v) = .pair k v := by
  unfold parseLine
  rw [pyStrip_recordBody hk, splitTab_recordBody hk,
    if_neg (by simp [List.isEmpty_eq_false, recordBody_ne_nil k v])]
  dsimp only
  rw [pyIntOfStr_intRepr]

theorem fileContent_cons (p : PyStr × Int) (ps : List (PyStr × Int)) :
    fileContent (p :: ps) = recordBody p.1 p.2 ++ '\n' :: fileContent ps := by
  simp [fileContent]

theorem parseContent_fileContent {pairs : List (PyStr × Int)}
    (h : ∀ p ∈ pairs, safeKey p.1 = true) :
    parseContent (fileContent pairs) = .ok pairs := by
  induction pairs with
  | nil => rfl
  | cons p ps ih =>
    have hp := h p (by simp)
    unfold parseContent
    rw [fileContent_cons, splitOnChar_append_sep (newline_not_mem_recordBody hp)]
    show parseLines (recordBody p.1 p.2 :: splitOnChar '\n' (fileContent ps)) = _
    unfold parseLines
    rw [parseLine_recordBody hp]
    dsimp only
    have ih2 : parseLines (splitOnChar '\n' (fileContent ps)) = .ok ps :=
      ih (fun q hq => h q (List.mem_cons_of_mem p hq))
    rw [ih2]

/-! Lemmas about insertion-ordered grouping (the defaultdict model). -/

theorem lookup_cons {κ ν : Type} [DecidableEq κ] (r : κ) (e : κ × ν) (t : List (κ × ν)) :
    (e :: t).lookup r = if r = e.1 then some e.2 else t.lookup r := by
  obtain ⟨k, b⟩ := e
  by_cases h : r = k
  · simp [List.lookup, h]
  · have hbeq : (r == k) = false := by simp [h]
    simp [List.lookup, hbeq, h]

theorem insertGrouped_lookup {κ ν : Type} [DecidableEq κ] (k : κ) (v : ν)
    (acc : List (κ × List ν)) (r : κ) :
    (insertGrouped k v acc).lookup r =
      if r = k then
        match acc.lookup r with
        | some vs => some (vs ++ [v])
        | none => some [v]
      else acc.lookup r := by
  induction acc with
  | nil =>
    by_cases h : r = k
    · simp [insertGrouped, lookup_cons, List.lookup, h]
    · have hbeq : (r == k) = false := by simp [h]
      simp [insertGrouped, lookup_cons, List.lookup, h, hbeq]
  | cons e t ih =>
    by_cases he : e.1 = k
    · rw [show insertGrouped k v (e :: t) = (e.1, e.2 ++ [v]) :: t from by
        simp [insertGrouped, he]]
      by_cases hr : r = e.1
      · rw [lookup_cons, lookup_cons, if_pos hr, if_pos hr, if_pos (hr.trans he)]
      · rw [lookup_cons, lookup_cons, if_neg hr, if_neg hr,
          if_neg (fun hrk => hr (hrk.trans he.symm))]
    · rw [show insertGrouped k v (e :: t) = e :: insertGrouped k v t from by
        simp [insertGrouped, he]]
      by_cases hr : r = e.1
      · rw [lookup_cons, if_pos hr, lookup_cons, if_pos hr,
          if_neg (fun hrk => he ((hr.symm.trans hrk).symm ▸ rfl))]
      · rw [lookup_cons, if_neg hr, lookup_cons, if_neg hr, ih]

theorem insertGrouped_keys {κ ν : Type} [DecidableEq κ] (k : κ) (v : ν)
    (acc : List (κ × List ν)) :
    (insertGrouped k v acc).map Prod.fst =
      if k ∈ acc.map Prod.fst then acc.map Prod.fst else acc.map Prod.fst ++ [k] := by
  induction acc with
  | nil => simp [insertGrouped]
  | cons e t ih =>
    by_cases he : e.1 = k
    · simp [insertGrouped, he]
    · have hne : k ≠ e.1 := fun hh => he hh.symm
      simp only [insertGrouped, if_neg he, List.map_cons, ih, List.mem_cons]
      by_cases hmem : k ∈ t.map Prod.fst
      · simp [hmem, hne]
      · simp [hmem, hne]

theorem foldl_insertGrouped_lookup {κ ν : Type} [DecidableEq κ] [DecidableEq ν]
    (l : List (κ × ν)) :
    ∀ (acc : List (κ × List ν)) (r : κ),
      (l.foldl (fun a p => insertGrouped p.1 p.2 a) acc).lookup r =
        match acc.lookup r with
        | some vs => some (vs ++ valsOf r l)
        | none => if valsOf r l = [] then none else some (valsOf r l) := by
  induction l with
  | nil =>
    intro acc r
    simp only [List.foldl_nil, valsOf, List.filter_nil, List.map_nil]
    cases acc.lookup r <;> simp
  | cons p t ih =>
    intro acc r
    rw [List.foldl_cons, ih, insertGrouped_lookup]
    by_cases hp : r = p.1
    · have hv : valsOf r (p :: t) = p.2 :: valsOf r t := by
        simp [valsOf, List.filter_cons, hp.symm]
      rw [if_pos hp, hv]
      cases hacc : acc.lookup r with
      | some vs => simp
      | none => simp
    · have hv : valsOf r (p :: t) = valsOf r t := by
        have : ¬ p.1 = r := fun hh => hp hh.symm
        simp [valsOf, List.filter_cons, this]
      rw [if_neg hp, hv]

theorem groupPairs_lookup {κ ν : Type} [DecidableEq κ] [DecidableEq ν]
    (l : List (κ × ν)) (r : κ) :
    (groupPairs l).lookup r =
      if valsOf r l = [] then none else some (valsOf r l) := by
  unfold groupPairs
  rw [foldl_insertGrouped_lookup]
  simp [List.lookup]

theorem foldl_insertGrouped_keys_nodup {κ ν : Type} [DecidableEq κ] (l : List (κ × ν)) :
    ∀ acc : List (κ × List ν), ((acc.map Prod.fst).Nodup) →
      ((l.foldl (fun a p => insertGrouped p.1 p.2 a) acc).map Prod.fst).Nodup := by
  induction l with
  | nil => intro acc h; exact h
  | cons p t ih =>
    intro acc h
    rw [List.foldl_cons]
    refine ih _ ?_
    rw [insertGrouped_keys]
    split
    · exact h
    · next hmem =>
      rw [List.nodup_append]
      exact ⟨h, by simp, by simpa [List.disjoint_singleton] using hmem⟩

theorem groupPairs_keys_nodup {κ ν : Type} [DecidableEq κ] (l : List (κ × ν)) :
    ((groupPairs l).map Prod.fst).Nodup :=
  foldl_insertGrouped_keys_nodup l [] (by simp)

theorem foldl_insertGrouped_keys_mem {κ ν : Type} [DecidableEq κ] (l : List (κ × ν)) :
    ∀ (acc : List (κ × List ν)) (k : κ),
      (k ∈ (l.foldl (fun a p => insertGrouped p.1 p.2 a) acc).map Prod.fst ↔
        k ∈ acc.map Prod.fst ∨ k ∈ l.map Prod.fst) := by
  induction l with
  | nil => simp
  | cons p t ih =>
    intro acc k
    rw [List.foldl_cons, ih, insertGrouped_keys]
    split
    · next hmem =>
      constructor
      · intro hh
        rcases hh with h1 | h1
        · exact Or.inl h1
        · exact Or.inr (by simp [h1])
      · intro hh
        rcases hh with h1 | h1
        · exact Or.inl h1
        · rw [List.map_cons] at h1
          rcases List.mem_cons.mp h1 with h2 | h2
          · exact Or.inl (h2 ▸ hmem)
          · exact Or.inr h2
    · next hmem =>
      simp only [List.mem_append, List.mem_singleton, List.map_cons, List.mem_cons]
      tauto

theorem groupPairs_keys_mem {κ ν : Type} [DecidableEq κ] (l : List (κ × ν)) (k : κ) :
    k ∈ (groupPairs l).map Prod.fst ↔ k ∈ l.map Prod.fst := by
  simpa using foldl_insertGrouped_keys_mem l [] k

/-! Pipeline lemmas: from map-task buckets through reduce outputs to the
final merge. -/

theorem lookup_map_value {κ α β : Type} [DecidableEq κ] (f : α → β) (m : List (κ × α))
    (r : κ) :
    (m.map (fun g => (g.1, f g.2))).lookup r = (m.lookup r).map f := by
  induction m with
  | nil => simp [List.lookup]
  | cons e t ih =>
    rw [List.map_cons, lookup_cons, lookup_cons]
    by_cases h : r = e.1 <;> simp [h, ih]

theorem taskFiles_lookup (R : Nat) (t : MapTaskRun) (ri : Int) :
    (taskFiles R t).lookup ri =
      if t.pairs.filter (fun p => partitionIdx t.k0 t.k1 p.1 R = ri) = [] then none
      else some (fileContent
        (t.pairs.filter (fun p => partitionIdx t.k0 t.k1 p.1 R = ri))) := by
  unfold taskFiles mapPartitionFiles
  rw [lookup_map_value, groupPairs_lookup]
  have hv : valsOf ri (t.pairs.map (fun p => (partitionIdx t.k0 t.k1 p.1 R, p))) =
      t.pairs.filter (fun p => partitionIdx t.k0 t.k1 p.1 R = ri) := by
    unfold valsOf
    rw [List.filter_map, List.map_map]
    simp [Function.comp_def]
  rw [hv]
  by_cases hc : t.pairs.filter (fun p => partitionIdx t.k0 t.k1 p.1 R = ri) = []
  · rw [if_pos hc, if_pos hc]
    rfl
  · rw [if_neg hc, if_neg hc]
    rfl

theorem readFiles_cons_some (content : PyStr) (rest : List (Option PyStr)) :
    readFiles (some content :: rest) =
      match parseContent content with
      | .error e => Except.error e
      | .ok ps =>
        match readFiles rest with
        | .error e => Except.error e
        | .ok tail => Except.ok (ps ++ tail) := rfl

theorem routedTo_cons (R : Nat) (t : MapTaskRun) (ts : List MapTaskRun) (r : Nat) :
    routedTo R (t :: ts) r =
      t.pairs.filter (fun p => partitionIdx t.k0 t.k1 p.1 R = (r : Int)) ++
        routedTo R ts r := by
  simp [routedTo]

theorem readFiles_reducerInput (R : Nat) (tasks : List MapTaskRun) (r : Nat)
    (hsafe : ∀ t ∈ tasks, ∀ p ∈ t.pairs, safeKey p.1 = true) :
    readFiles (reducerInputFiles R tasks r) = .ok (routedTo R tasks r) := by
  induction tasks with
  | nil => rfl
  | cons t ts ih =>
    have hts : ∀ t2 ∈ ts, ∀ p ∈ t2.pairs, safeKey p.1 = true :=
      fun t2 h2 => hsafe t2 (List.mem_cons_of_mem t h2)
    have hih := ih hts
    unfold reducerInputFiles at hih ⊢
    rw [List.filterMap_cons, taskFiles_lookup, routedTo_cons]
    by_cases hb : t.pairs.filter (fun p => partitionIdx t.k0 t.k1 p.1 R = (r : Int)) = []
    · rw [if_pos hb, hb, List.nil_append]
      exact hih
    · rw [if_neg hb]
      dsimp only
      rw [List.map_cons, readFiles_cons_some]
      have hfsafe : ∀ p ∈ t.pairs.filter
          (fun p => partitionIdx t.k0 t.k1 p.1 R = (r : Int)), safeKey p.1 = true :=
        fun p hp => hsafe t (by simp) p ((List.filter_sublist t.pairs).subset hp)
      rw [parseContent_fileContent hfsafe, hih]

theorem execute_reduce_reducerInput (R : Nat) (tasks : List MapTaskRun) (r : Nat)
    (hsafe : ∀ t ∈ tasks, ∀ p ∈ t.pairs, safeKey p.1 = true) :
    execute_reduce r (reducerInputFiles R tasks r) =
      .completed (r, fileContent (reduceResults (routedTo R tasks r))) := by
  unfold execute_reduce
  rw [readFiles_reducerInput R tasks r hsafe]

theorem jobOutputContent_eq (R : Nat) (tasks : List MapTaskRun) (r : Nat)
    (hsafe : ∀ t ∈ tasks, ∀ p ∈ t.pairs, safeKey p.1 = true) :
    jobOutputContent R tasks r =
      some (fileContent (reduceResults (routedTo R tasks r))) := by
  unfold jobOutputContent
  rw [execute_reduce_reducerInput R tasks r hsafe]

theorem reduceResults_keys (pairs : List (PyStr × Int)) :
    (reduceResults pairs).map Prod.fst = (groupPairs pairs).map Prod.fst := by
  simp [reduceResults, wcReduceFunc, List.map_map, Function.comp]

theorem reduceResults_keys_nodup (pairs : List (PyStr × Int)) :
    ((reduceResults pairs).map Prod.fst).Nodup := by
  rw [reduceResults_keys]
  exact groupPairs_keys_nodup _

theorem reduceResults_keys_mem {pairs : List (PyStr × Int)} {k : PyStr} :
    k ∈ (reduceResults pairs).map Prod.fst ↔ k ∈ pairs.map Prod.fst := by
  rw [reduceResults_keys]
  exact groupPairs_keys_mem pairs k

theorem reduceResults_safe {pairs : List (PyStr × Int)}
    (h : ∀ p ∈ pairs, safeKey p.1 = true) :
    ∀ q ∈ reduceResults pairs, safeKey q.1 = true := by
  intro q hq
  have hk : q.1 ∈ pairs.map Prod.fst :=
    reduceResults_keys_mem.mp (List.mem_map_of_mem Prod.fst hq)
  obtain ⟨p, hp, hpk⟩ := List.mem_map.mp hk
  exact hpk ▸ h p hp

theorem routedTo_safe {R : Nat} {tasks : List MapTaskRun} {r : Nat}
    (hsafe : ∀ t ∈ tasks, ∀ p ∈ t.pairs, safeKey p.1 = true) :
    ∀ p ∈ routedTo R tasks r, safeKey p.1 = true := by
  intro p hp
  unfold routedTo at hp
  obtain ⟨l, hl, hpl⟩ := List.mem_flatten.mp hp
  obtain ⟨t, ht, hlt⟩ := List.mem_map.mp hl
  exact hsafe t ht p ((List.filter_sublist t.pairs).subset (hlt ▸ hpl))

theorem mergeCollect_fileContents {files : Nat → Option PyStr}
    {g : Nat → List (PyStr × Int)} :
    ∀ {is : List Nat}, (∀ i ∈ is, files i = some (fileContent (g i))) →
      (∀ i ∈ is, ∀ p ∈ g i, safeKey p.1 = true) →
      mergeCollect files is = .ok ((is.map g).flatten) := by
  intro is
  induction is with
  | nil => intro _ _; rfl
  | cons i it ih =>
    intro h1 h2
    unfold mergeCollect
    rw [h1 i (by simp)]
    dsimp only
    rw [parseContent_fileContent (h2 i (by simp)),
      ih (fun j hj => h1 j (List.mem_cons_of_mem _ hj))
        (fun j hj => h2 j (List.mem_cons_of_mem _ hj))]
    simp

theorem insertByCount_perm (x : PyStr × Int) (l : List (PyStr × Int)) :
    (insertByCount x l).Perm (x :: l) := by
  induction l with
  | nil => rfl
  | cons y t ih =>
    unfold insertByCount
    split
    · exact (List.Perm.cons y ih).trans (List.Perm.swap x y t)
    · rfl

theorem sortByCountDesc_perm (l : List (PyStr × Int)) :
    (sortByCountDesc l).Perm l := by
  induction l with
  | nil => rfl
  | cons x xs ih =>
    unfold sortByCountDesc
    exact (insertByCount_perm x (sortByCountDesc xs)).trans (List.Perm.cons x ih)

theorem insertByCount_sorted {x : PyStr × Int} {l : List (PyStr × Int)}
    (h : List.Pairwise (fun p q => q.2 ≤ p.2) l) :
    List.Pairwise (fun p q => q.2 ≤ p.2) (insertByCount x l) := by
  induction l with
  | nil => simp [insertByCount]
  | cons y t ih =>
    unfold insertByCount
    split
    · next hlt =>
      rw [List.pairwise_cons] at h
      refine List.pairwise_cons.mpr ⟨?_, ih h.2⟩
      intro z hz
      rcases List.mem_cons.mp (((insertByCount_perm x t).mem_iff).mp hz) with h1 | h1
      · subst h1
        omega
      · exact h.1 z h1
    · next hge =>
      rw [List.pairwise_cons] at h
      refine List.pairwise_cons.mpr ⟨?_, List.pairwise_cons.mpr h⟩
      intro z hz
      rcases List.mem_cons.mp hz with h1 | h1
      · subst h1
        omega
      · have := h.1 z h1
        omega

theorem sortByCountDesc_sorted (l : List (PyStr × Int)) :
    List.Pairwise (fun p q => q.2 ≤ p.2) (sortByCountDesc l) := by
  induction l with
  | nil => simp [sortByCountDesc]
  | cons x xs ih =>
    unfold sortByCountDesc
    exact insertByCount_sorted ih

theorem mem_routedTo_partition {R : Nat} {tasks : List MapTaskRun} {r : Nat}
    {k : PyStr} {a b : Nat} (hseed : ∀ t ∈ tasks, t.k0 = a ∧ t.k1 = b)
    (h : k ∈ (routedTo R tasks r).map Prod.fst) :
    partitionIdx a b k R = (r : Int) := by
  obtain ⟨p, hp, hpk⟩ := List.mem_map.mp h
  unfold routedTo at hp
  obtain ⟨l, hl, hpl⟩ := List.mem_flatten.mp hp
  obtain ⟨t, ht, hlt⟩ := List.mem_map.mp hl
  have hfil := List.mem_filter.mp (hlt ▸ hpl)
  have hpart : partitionIdx t.k0 t.k1 p.1 R = (r : Int) := by
    simpa using hfil.2
  rw [(hseed t ht).1, (hseed t ht).2] at hpart
  rw [← hpk]
  exact hpart

/-! Master-side helper lemmas. -/

theorem reduce_complete_iter (m R : Nat) :
    ∀ k, k ≤ R →
      (reduce_complete^[k] (initMaster m R)).completed_reduces = k ∧
      (reduce_complete^[k] (initMaster m R)).num_reduce_tasks = R ∧
      (reduce_complete^[k] (initMaster m R)).merges =
        (if k = R ∧ 0 < R then 1 else 0) := by
  intro k
  induction k with
  | zero =>
    intro _
    refine ⟨rfl, rfl, ?_⟩
    rw [if_neg]
    · rfl
    · rintro ⟨h1, h2⟩
      omega
  | succ k ih =>
    intro hk
    obtain ⟨h1, h2, h3⟩ := ih (by omega)
    rw [Function.iterate_succ_apply']
    refine ⟨?_, ?_, ?_⟩
    · show (reduce_complete^[k] (initMaster m R)).completed_reduces + 1 = k + 1
      rw [h1]
    · show (reduce_complete^[k] (initMaster m R)).num_reduce_tasks = R
      exact h2
    · show (if (reduce_complete^[k] (initMaster m R)).completed_reduces + 1 =
          (reduce_complete^[k] (initMaster m R)).num_reduce_tasks
        then (reduce_complete^[k] (initMaster m R)).merges + 1
        else (reduce_complete^[k] (initMaster m R)).merges) =
          (if k + 1 = R ∧ 0 < R then 1 else 0)
      rw [h1, h2, h3]
      by_cases hkr : k + 1 = R
      · rw [if_pos hkr, if_neg (show ¬(k = R ∧ 0 < R) by omega),
          if_pos ⟨hkr, by omega⟩]
      · rw [if_neg hkr, if_neg (show ¬(k + 1 = R ∧ 0 < R) from fun hh => hkr hh.1),
          if_neg (show ¬(k = R ∧ 0 < R) by omega)]

theorem parseLine_key_no_tab {l k2 : PyStr} {v2 : Int}
    (h : parseLine l = .pair k2 v2) : '\t' ∉ k2 := by
  unfold parseLine at h
  split at h
  · exact LineParse.noConfusion h
  · split at h
    · next k v heq =>
      split at h
      · next n hn =>
        have hk : k = k2 := by
          injection h with hk hv
        have hmem : k ∈ splitOnChar '\t' (pyStrip l) := by
          rw [heq]
          simp
        exact hk ▸ not_mem_of_mem_splitOnChar k hmem
      · exact LineParse.noConfusion h
    · exact LineParse.noConfusion h

/-! Claim theorems. -/

/-- C9: for every hash secret, key, and reducer count R greater than zero,
the reducer index computed by the map step, hash(key) mod R with Python
remainder semantics, lies in the interval from 0 inclusive to R exclusive,
also when the signed hash value is negative. -/
theorem claim9_partition_index_in_range (k0 k1 : Nat) (key : PyStr) (R : Nat)
    (hR : 0 < R) :
    0 ≤ partitionIdx k0 k1 key R ∧ partitionIdx k0 k1 key R < (R : Int) := by
  unfold partitionIdx
  refine ⟨Int.emod_nonneg _ ?_, Int.emod_lt_of_pos _ ?_⟩
  · exact_mod_cast hR.ne'
  · exact_mod_cast hR

/-- Witness for C9 at hash secret (0,0), key "the", R = 4. -/
theorem claim9_witness :
    0 ≤ partitionIdx 0 0 theKey 4 ∧ partitionIdx 0 0 theKey 4 < (4 : Int) :=
  claim9_partition_index_in_range 0 0 theKey 4 (by decide)

/-- C1: the partition computation hash(key) mod R is a pure function of
the per-process hash secret and the key, hence deterministic within one
interpreter; but CPython draws a fresh random secret at every interpreter
start when PYTHONHASHSEED is unset (this repository never sets it), and
under two different secrets the same key routes to different reducers, so
the computation is NOT stable across process restarts or across distinct
worker processes.  Evaluated at secrets (0,0) and (1,0), the key "the"
with R = 4 goes to reducer 1 in one process and reducer 3 in the other. -/
theorem claim1_partition_unstable_across_processes :
    partitionIdx 0 0 theKey 4 = 1 ∧ partitionIdx 1 0 theKey 4 = 3 ∧
      partitionIdx 0 0 theKey 4 ≠ partitionIdx 1 0 theKey 4 :=
  ⟨by decide, by decide, by decide⟩

/-- C2: the /map_complete handler keys nothing on the reported task id:
feeding the identical completion report for task "map-0" twice to a job
with two map tasks drives the completed-map counter to 2 (one increment
per report, not per distinct task id) and launches the reduce phase even
though task map-1 never completed. -/
theorem claim2_duplicate_map_complete_double_counts :
    (map_complete (map_complete (initMaster 2 4) dupReport) dupReport).completed_maps
        = 2 ∧
    (map_complete (map_complete (initMaster 2 4) dupReport) dupReport).reduce_phase_starts
        = 1 :=
  ⟨rfl, rfl⟩

/-- C7: a reduce task assigned the empty list of partition files still
completes, producing the empty output file for its reducer index and
reporting completion; the merger parses an empty file as zero pairs; and
a job with R reducers fires the merge exactly once after the R
completion reports arrive, so the job reaches DONE. -/
theorem claim7_empty_reduce_completes_job_done (r m R : Nat) (hR : 0 < R) :
    execute_reduce r [] = .completed (r, []) ∧
    parseContent ([] : PyStr) = .ok [] ∧
    (reduce_complete^[R] (initMaster m R)).merges = 1 := by
  refine ⟨rfl, rfl, ?_⟩
  have h := (reduce_complete_iter m R R le_rfl).2.2
  rw [h, if_pos ⟨rfl, hR⟩]

/-- Witness for C7 at reducer 0, a job with 3 map tasks and 4 reducers. -/
theorem claim7_witness :
    execute_reduce 0 [] = .completed (0, []) ∧
    parseContent ([] : PyStr) = .ok [] ∧
    (reduce_complete^[4] (initMaster 3 4)).merges = 1 :=
  claim7_empty_reduce_completes_job_done 0 3 4 (by decide)

/-- C6: in the worker's map step every read or write error is caught and
surfaced as a failed-status response: a failed input read (none) or any
failed partition-file write makes execute_map answer WorkerResult.failed,
which carries no completion report, so the task stays incomplete; a
completed report exists only when the read and all writes succeeded.  The
handler is a total function of its inputs: no error escapes it, modelling
that such errors never crash the worker process. -/
theorem claim6_map_errors_surfaced_not_reported (k0 k1 R : Nat)
    (mf : PyStr → List (PyStr × Int)) (input : Option PyStr) (writeOk : Int → Bool) :
    (input = none → execute_map k0 k1 R mf input writeOk = .failed) ∧
    (∀ text, input = some text →
      (mapPartitionFiles k0 k1 R (mf text)).all (fun g => writeOk g.1) = false →
      execute_map k0 k1 R mf input writeOk = .failed) ∧
    (∀ report, execute_map k0 k1 R mf input writeOk = .completed report →
      ∃ text, input = some text ∧ report = mapPartitionFiles k0 k1 R (mf text) ∧
        (mapPartitionFiles k0 k1 R (mf text)).all (fun g => writeOk g.1) = true) := by
  refine ⟨?_, ?_, ?_⟩
  · intro h
    subst h
    rfl
  · intro text h hw
    subst h
    unfold execute_map
    dsimp only
    rw [hw]
    simp
  · intro report h
    cases input with
    | none => exact absurd h (by simp [execute_map])
    | some text =>
      unfold execute_map at h
      dsimp only at h
      by_cases hw : (mapPartitionFiles k0 k1 R (mf text)).all (fun g => writeOk g.1) = true
      · rw [if_pos hw] at h
        injection h with h2
        exact ⟨text, rfl, h2.symm, hw⟩
      · rw [if_neg hw] at h
        exact WorkerResult.noConfusion h

/-- Witness for C6: a map task whose input read fails answers failed. -/
theorem claim6_witness :
    execute_map 0 0 4 (fun _ => []) none (fun _ => true) = .failed :=
  (claim6_map_errors_surfaced_not_reported 0 0 4 (fun _ => []) none (fun _ => true)).1 rfl

theorem parseContent_nil : parseContent ([] : PyStr) = .ok [] := rfl

theorem mergeCollect_cons (files : Nat → Option PyStr) (i : Nat) (it : List Nat) :
    mergeCollect files (i :: it) =
      match files i with
      | none => mergeCollect files it
      | some content =>
        match parseContent content with
        | .error e => Except.error e
        | .ok ps =>
          match mergeCollect files it with
          | .error e => Except.error e
          | .ok tail => Except.ok (ps ++ tail) := rfl

/-- C10: both the reduce executor and the merger convert the value field
with int(): for a line key TAB s whose value field s is not an integer
numeral (s nonempty and whitespace-free with pyIntOfStr s = none, the
model of int(s) raising ValueError), the line parse errors, the reduce
task reading it fails, and a merge reading it aborts; despite the generic
pair interface only integer-valued map outputs survive the pipeline. -/
theorem claim10_nonint_value_fails (key s : PyStr) (r : Nat)
    (hk : safeKey key = true) (hne : s ≠ [])
    (hs : ∀ c ∈ s, pyIsSpace c = false)
    (hnum : pyIntOfStr s = none) :
    parseLine (key ++ '\t' :: s) = .err ∧
    execute_reduce r [some (key ++ '\t' :: s)] = .failed ∧
    merge_results 1 (fun _ => some (key ++ '\t' :: s)) = .error () := by
  obtain ⟨hkne, hkhead, hkchars⟩ := safeKey_unpack hk
  have hlne : key ++ '\t' :: s ≠ [] := by simp
  have htab_s : '\t' ∉ s := fun hmem => absurd (hs '\t' hmem) (by decide)
  have hstrip : pyStrip (key ++ '\t' :: s) = key ++ '\t' :: s := by
    refine pyStrip_eq_self hlne ?_ ?_
    · cases key with
      | nil => exact absurd rfl hkne
      | cons a t => simpa using hkhead
    · have hsne : ('\t' :: s) ≠ [] := by simp
      rw [List.getLast_append' key _ hsne, List.getLast_cons hne]
      exact hs _ (List.getLast_mem hne)
  have hparse : parseLine (key ++ '\t' :: s) = .err := by
    unfold parseLine
    rw [hstrip, if_neg (by simp [List.isEmpty_iff]),
      splitOnChar_append_sep (tab_not_mem_of_safe hk), splitOnChar_not_mem htab_s]
    dsimp only
    rw [hnum]
  have hcontent : parseContent (key ++ '\t' :: s) = .error () := by
    unfold parseContent
    have hnl : '\n' ∉ key ++ '\t' :: s := by
      intro hmem
      rcases List.mem_append.mp hmem with h1 | h1
      · exact newline_not_mem_of_safe hk h1
      · rcases List.mem_cons.mp h1 with h2 | h2
        · exact absurd h2 (by decide)
        · exact absurd (hs _ h2) (by decide)
    rw [splitOnChar_not_mem hnl]
    unfold parseLines
    rw [hparse]
  refine ⟨hparse, ?_, ?_⟩
  · unfold execute_reduce
    rw [readFiles_cons_some, hcontent]
  · unfold merge_results
    have hmc : mergeCollect (fun _ => some (key ++ '\t' :: s)) (List.range 1) =
        .error () := by
      rw [show List.range 1 = [0] from rfl, mergeCollect_cons]
      dsimp only
      rw [hcontent]
    rw [hmc]

/-- Witness for C10 at key "k", value field "abc", reducer 0. -/
theorem claim10_witness :
    parseLine (['k'] ++ '\t' :: ['a', 'b', 'c']) = .err ∧
    execute_reduce 0 [some (['k'] ++ '\t' :: ['a', 'b', 'c'])] = .failed ∧
    merge_results 1 (fun _ => some (['k'] ++ '\t' :: ['a', 'b', 'c'])) = .error () :=
  claim10_nonint_value_fails ['k'] ['a', 'b', 'c'] 0 (by decide) (by decide)
    (by decide) (by decide)

/-- C8 counterexample: the key " a" (with a leading space) contains
neither TAB nor newline, yet the write-then-parse round trip does not
recover it: str.strip of the line eats the leading space and the parse
returns the pair with key "a" instead. -/
theorem claim8_counterexample_leading_space_key :
    parseContent (fileContent [([' ', 'a'], 1)]) = .ok [(['a'], 1)] ∧
    parseContent (fileContent [([' ', 'a'], 1)]) ≠ .ok [([' ', 'a'], 1)] :=
  ⟨by decide, by decide⟩

/-- C8 amended: writing map output pairs as key TAB value NEWLINE records
and re-parsing them in the reduce step recovers exactly the written pairs
when every key is safe: nonempty, not starting with a whitespace
character, and containing no tab, newline or carriage return (the claim
required only absence of TAB and newline, but the strip-based parser also
corrupts keys with leading whitespace, see the counterexample).  A key
containing the TAB delimiter corrupts parsing on reload: whatever pair
the reduce-side line parse returns has a different key, since split
pieces never contain the separator. -/
theorem claim8_roundtrip_and_tab_corruption :
    (∀ pairs : List (PyStr × Int), (∀ p ∈ pairs, safeKey p.1 = true) →
      parseContent (fileContent pairs) = .ok pairs) ∧
    (∀ (k : PyStr) (v : Int) (k2 : PyStr) (v2 : Int), '\t' ∈ k →
      parseLine (recordBody k v) = .pair k2 v2 → k2 ≠ k) := by
  refine ⟨fun pairs h => parseContent_fileContent h, ?_⟩
  intro k v k2 v2 htab hparse heq
  exact (heq ▸ parseLine_key_no_tab hparse) htab

/-- Witness for C8: one safe pair round-trips. -/
theorem claim8_witness :
    parseContent (fileContent [(['a'], (1 : Int))]) = .ok [(['a'], 1)] :=
  claim8_roundtrip_and_tab_corruption.1 [(['a'], 1)] (by decide)

/-- C4 counterexample: a malformed line (no TAB field separator) in a
present reduce output file aborts the whole merge: merge_results catches
only FileNotFoundError, and the ValueError from the line parse has no
handler. -/
theorem claim4_counterexample_malformed_aborts_merge :
    merge_results 1 (fun _ => some ['a', 'b', 'c']) = .error () := by decide

/-- C4 amended: the merger tolerates a missing per-reducer output file,
skipping it with a warning and treating it as zero contributions - the
merge over any file assignment equals the merge with every missing file
replaced by an empty file; but a malformed line in a present file is not
tolerated and aborts the merge (see the counterexample). -/
theorem claim4_missing_files_zero_contribution (R : Nat) (files : Nat → Option PyStr) :
    merge_results R files = merge_results R (fun i => some ((files i).getD [])) := by
  unfold merge_results
  suffices h : ∀ is : List Nat, mergeCollect files is =
      mergeCollect (fun i => some ((files i).getD [])) is by
    rw [h]
  intro is
  induction is with
  | nil => rfl
  | cons i it ih =>
    rw [mergeCollect_cons, mergeCollect_cons]
    cases hf : files i with
    | none =>
      dsimp only
      rw [ih]
      simp only [Option.getD_none, parseContent_nil]
      cases hm : mergeCollect (fun j => some ((files j).getD [])) it <;> simp [hm]
    | some c =>
      dsimp only
      rw [ih]
      rfl

/-- C3: CPython's per-process hash secrets can split one key across two
reducers: in the job cexTasks both map tasks emit the word "the", but
their worker processes drew secrets (0,0) and (1,0), so with R = 4 the
key lands in the partition files of reducers 1 and 3 and, after the
reduce phase, appears in both reducers' output files.  The union of
output keys then double-counts the map keys and key-disjointness of
reducer outputs fails. -/
theorem claim3_key_in_two_reducer_outputs :
    theKey ∈ fileKeys ((jobOutputContent 4 cexTasks 1).getD []) ∧
    theKey ∈ fileKeys ((jobOutputContent 4 cexTasks 3).getD []) ∧
    (1 : Nat) ≠ 3 :=
  ⟨by decide, by decide, by decide⟩

/-- C5 counterexample: in the split-secret job cexTasks the merge
completes and returns the key "the" twice, once from the output file of
reducer 1 and once from that of reducer 3: the final sequence has 1
unique key while the distinct-key counts of the reduce output files sum
to 2. -/
theorem claim5_counterexample_unique_count_mismatch :
    merge_results 4 (fun r => jobOutputContent 4 cexTasks r) =
      .ok [(theKey, 1), (theKey, 1)] ∧
    ([(theKey, (1 : Int)), (theKey, 1)].map Prod.fst).dedup.length = 1 ∧
    ((List.range 4).map (fun r =>
      match jobOutputContent 4 cexTasks r with
      | some c => fileDistinctKeys c
      | none => 0)).sum = 2 :=
  ⟨by decide, by decide, by decide⟩

/-- C5 amended: for a completed job whose map tasks all ran under one
hash secret (the stable-partition precondition the spec demands; the
per-process randomized hash violates it, see the counterexample) and
whose keys are all safe, the final merged result is sorted non-increasing
by aggregate value and its count of unique keys equals the sum over the
reduce output files of their distinct-key counts. -/
theorem claim5_merge_sorted_and_unique_count (R : Nat) (tasks : List MapTaskRun)
    (a b : Nat) (hseed : ∀ t ∈ tasks, t.k0 = a ∧ t.k1 = b)
    (hsafe : ∀ t ∈ tasks, ∀ p ∈ t.pairs, safeKey p.1 = true) :
    ∃ final, merge_results R (fun r => jobOutputContent R tasks r) = .ok final ∧
      List.Pairwise (fun x y => y.2 ≤ x.2) final ∧
      (final.map Prod.fst).dedup.length =
        ((List.range R).map (fun r =>
          match jobOutputContent R tasks r with
          | some c => fileDistinctKeys c
          | none => 0)).sum := by
  have hout : ∀ r : Nat, jobOutputContent R tasks r =
      some (fileContent (reduceResults (routedTo R tasks r))) :=
    fun r => jobOutputContent_eq R tasks r hsafe
  have hgsafe : ∀ r : Nat, ∀ p ∈ reduceResults (routedTo R tasks r), safeKey p.1 = true :=
    fun r => reduceResults_safe (routedTo_safe hsafe)
  have hcollect : mergeCollect (fun r => jobOutputContent R tasks r) (List.range R) =
      .ok (((List.range R).map (fun r => reduceResults (routedTo R tasks r))).flatten) :=
    mergeCollect_fileContents (fun i _ => hout i) (fun i _ => hgsafe i)
  refine ⟨sortByCountDesc (((List.range R).map
      (fun r => reduceResults (routedTo R tasks r))).flatten),
    ?_, sortByCountDesc_sorted _, ?_⟩
  · unfold merge_results
    rw [hcollect]
  · have hnodup : ((((List.range R).map
        (fun r => reduceResults (routedTo R tasks r))).flatten).map Prod.fst).Nodup := by
      rw [List.map_flatten, List.map_map, List.nodup_flatten]
      constructor
      · intro l hl
        obtain ⟨r, hr, hrl⟩ := List.mem_map.mp hl
        rw [← hrl]
        exact reduceResults_keys_nodup _
      · rw [List.pairwise_map]
        refine (List.pairwise_lt_range R).imp ?_
        intro r r2 hlt
        intro k hk1 hk2
        have hm1 : k ∈ (reduceResults (routedTo R tasks r)).map Prod.fst := hk1
        have hm2 : k ∈ (reduceResults (routedTo R tasks r2)).map Prod.fst := hk2
        have e1 := mem_routedTo_partition hseed (reduceResults_keys_mem.mp hm1)
        have e2 := mem_routedTo_partition hseed (reduceResults_keys_mem.mp hm2)
        have hcast : (r : Int) = (r2 : Int) := e1.symm.trans e2
        have : r = r2 := Int.natCast_inj.mp hcast
        omega
    have hperm := (((sortByCountDesc_perm (((List.range R).map
        (fun r => reduceResults (routedTo R tasks r))).flatten)).map
          Prod.fst).dedup).length_eq
    rw [hperm, hnodup.dedup, List.length_map, List.length_flatten, List.map_map]
    refine congrArg List.sum ?_
    refine (List.map_congr_left ?_).symm
    intro r hr
    rw [hout r]
    show fileDistinctKeys (fileContent (reduceResults (routedTo R tasks r))) = _
    unfold fileDistinctKeys
    rw [parseContent_fileContent (hgsafe r)]
    show ((reduceResults (routedTo R tasks r)).map Prod.fst).dedup.length = _
    rw [(reduceResults_keys_nodup _).dedup, List.length_map]
    rfl

/-- Witness for C5 at the uniform-secret job wTasks with R = 2. -/
theorem claim5_witness :
    ∃ final, merge_results 2 (fun r => jobOutputContent 2 wTasks r) = .ok final ∧
      List.Pairwise (fun x y => y.2 ≤ x.2) final ∧
      (final.map Prod.fst).dedup.length =
        ((List.range 2).map (fun r =>
          match jobOutputContent 2 wTasks r with
          | some c => fileDistinctKeys c
          | none => 0)).sum :=
  claim5_merge_sorted_and_unique_count 2 wTasks 0 0 (by decide) (by decide)

end MR

